import Mathlib

set_option maxRecDepth 20000
set_option maxHeartbeats 2000000

/-!
Shallow embedding of the attendance-scanner OCR pipeline
(`src/attendance-scanner/src/parser.py` and `matcher.py`).

Strings are processed as `List Char`.  Python regular expressions used by the
source are embedded as explicit character-level matchers that reproduce the
backtracking order of the concrete patterns appearing in the code.  Character
classes (`\w`, `\s`, `[A-Z]`, ...) are modelled for the character repertoire
this repository processes: ASCII plus the common Latin accent range.
-/

/-- Lowercase/uppercase ASCII letter pairs, mirroring Python's `str` casing on
ASCII data. -/
def upPairs : List (Char × Char) :=
  [('a','A'),('b','B'),('c','C'),('d','D'),('e','E'),('f','F'),('g','G'),('h','H'),
   ('i','I'),('j','J'),('k','K'),('l','L'),('m','M'),('n','N'),('o','O'),('p','P'),
   ('q','Q'),('r','R'),('s','S'),('t','T'),('u','U'),('v','V'),('w','W'),('x','X'),
   ('y','Y'),('z','Z')]

def lowersC : List Char := upPairs.map (·.1)

def uppersC : List Char := upPairs.map (·.2)

def digitsC : List Char := ['0','1','2','3','4','5','6','7','8','9']

def isLowerC (c : Char) : Bool := lowersC.contains c

def isUpperC (c : Char) : Bool := uppersC.contains c

def isLetterC (c : Char) : Bool := isUpperC c || isLowerC c

def isDigitC (c : Char) : Bool := digitsC.contains c

def isAlnumC (c : Char) : Bool := isLetterC c || isDigitC c

/-- Whitespace characters recognized by the embedding (the ASCII subset of
Python's `str.strip` / regex `\s`). -/
def spacesC : List Char := [' ', '\t', '\n', '\r', '\x0b', '\x0c']

def isSpaceC (c : Char) : Bool := spacesC.contains c

/-- Python's regex word character `\w`, modelled for the characters this
repository's data can contain: ASCII alphanumerics, underscore, and the common
Latin letter range of Unicode. -/
def nonAsciiWordC (c : Char) : Bool :=
  let n := c.toNat
  (0xC0 ≤ n && n ≤ 0x24F && n ≠ 0xD7 && n ≠ 0xF7) ||
  n = 0xAA || n = 0xBA || n = 0xB2 || n = 0xB3 || n = 0xB9 || n = 0xB5

def isWordC (c : Char) : Bool := isAlnumC c || c == '_' || nonAsciiWordC c

/-- ASCII uppercasing (`str.upper` restricted to the ASCII letters that the
pipeline's name spans contain). -/
def toUpperC (c : Char) : Char := ((upPairs.find? (fun p => p.1 == c)).map (·.2)).getD c

/-- ASCII lowercasing. -/
def toLowerC (c : Char) : Char := ((upPairs.find? (fun p => p.2 == c)).map (·.1)).getD c

/-- Case-insensitive (ASCII) test that the pattern `pat` is a prefix of `cs`;
used for regex alternatives compiled with `IGNORECASE`. -/
def caselessPfx : List Char → List Char → Bool
  | [], _ => true
  | _ :: _, [] => false
  | p :: ps, c :: cs => (toUpperC c == toUpperC p) && caselessPfx ps cs

/-- Regex word-boundary test after `n` characters of `cs`: position `n` is the
end of the input or holds a non-word character. -/
def bndAfter (cs : List Char) (n : Nat) : Bool :=
  match cs[n]? with
  | none => true
  | some c => !isWordC c

def in05 (c : Char) : Bool :=
  c == '0' || c == '1' || c == '2' || c == '3' || c == '4' || c == '5'

def in03 (c : Char) : Bool := c == '0' || c == '1' || c == '2' || c == '3'

/-- Matcher for the time-token pattern `\b(?:[01]?\d|2[0-3])<sep>[0-5]\d\b` at
the head of `cs`, returning the match length.  The three alternatives are tried
in the backtracking order of the Python regex engine: two-digit hour via
`[01]?\d`, one-digit hour, then `2[0-3]`.  The trailing word boundary is part
of each attempt.  (The leading boundary is checked by the caller.) -/
def timeAt (sep : Char → Bool) (cs : List Char) : Option Nat :=
  let t : Nat → (Char → Bool) → Bool := fun i p => (cs[i]?).any p
  if t 0 (fun c => c == '0' || c == '1') && t 1 isDigitC && t 2 sep &&
      t 3 in05 && t 4 isDigitC && bndAfter cs 5 then some 5
  else if t 0 isDigitC && t 1 sep && t 2 in05 && t 3 isDigitC && bndAfter cs 4 then some 4
  else if t 0 (fun c => c == '2') && t 1 in03 && t 2 sep &&
      t 3 in05 && t 4 isDigitC && bndAfter cs 5 then some 5
  else none

/-- Matcher for `\b\d{2,}\b` at the head of `cs`.  A digit run shorter than 2,
or one followed by another word character, does not match (shorter prefixes of
the run cannot match either, because the following character is then a digit). -/
def numRunAt (cs : List Char) : Option Nat :=
  let run := cs.takeWhile isDigitC
  if 2 ≤ run.length && bndAfter cs run.length then some run.length else none

/-- Matcher for a single case-insensitive word `w` followed by a word boundary
(the body of `\bW\b`). -/
def wordLitAt (w : List Char) (cs : List Char) : Option Nat :=
  if caselessPfx w cs && bndAfter cs w.length then some w.length else none

/-- Matcher for a case-insensitive alternation `\b(W1|W2|...)\b`; the
alternatives are tried in order, each with its trailing boundary, matching the
regex engine's backtracking. -/
def altWordAt : List (List Char) → List Char → Option Nat
  | [], _ => none
  | w :: ws, cs =>
    if caselessPfx w cs && bndAfter cs w.length then some w.length else altWordAt ws cs

/-- One pass of `re.sub(pattern, ' ', ...)` for a pattern whose first character
is a word character, so its leading `\b` requires the previous character to be
a non-word one.  Matching is left-to-right and non-overlapping; after a match,
scanning resumes past the matched text with the last matched character as the
new "previous" character.  `fuel` bounds the recursion and is initialized to
the input length, which suffices because every step consumes a character. -/
def reSubAux (patAt : List Char → Option Nat) : Nat → Bool → List Char → List Char
  | 0, _, cs => cs
  | _ + 1, _, [] => []
  | fuel + 1, prevWord, c :: rest =>
    match (if prevWord then none else patAt (c :: rest)) with
    | some n =>
      ' ' :: reSubAux patAt fuel ((((c :: rest).take n).getLast?).elim false isWordC)
        ((c :: rest).drop n)
    | none => c :: reSubAux patAt fuel (isWordC c) rest

def reSub (patAt : List Char → Option Nat) (cs : List Char) : List Char :=
  reSubAux patAt cs.length false cs

/-- The `re.search` counterpart of `reSubAux`: true iff the pattern (with its
leading word boundary) matches at some position. -/
def reSearchAux (patAt : List Char → Option Nat) : Bool → List Char → Bool
  | _, [] => false
  | prevWord, c :: rest =>
    (!prevWord && (patAt (c :: rest)).isSome) || reSearchAux patAt (isWordC c) rest

def reSearch (patAt : List Char → Option Nat) (cs : List Char) : Bool :=
  reSearchAux patAt false cs

/-- Python `str.replace`: replace every non-overlapping occurrence of `p`,
scanning left to right. -/
def replAux (p v : List Char) : Nat → List Char → List Char
  | _, [] => []
  | 0, cs => cs
  | fuel + 1, c :: rest =>
    if p.isPrefixOf (c :: rest) then v ++ replAux p v fuel ((c :: rest).drop p.length)
    else c :: replAux p v fuel rest

def replaceAllL (p v cs : List Char) : List Char :=
  if p = [] then cs else replAux p v cs.length cs

/-- Split on whitespace, keeping empty segments (an auxiliary for `str.split`).
The result is always non-empty. -/
def splitSp : List Char → List (List Char)
  | [] => [[]]
  | c :: rest =>
    let r := splitSp rest
    if isSpaceC c then [] :: r else (c :: r.headD []) :: r.tail

/-- Python `str.split()` with no argument: the whitespace-separated words. -/
def wordsOf (cs : List Char) : List (List Char) := (splitSp cs).filter (fun w => !w.isEmpty)

def joinWith (sep : Char) : List (List Char) → List Char
  | [] => []
  | [w] => w
  | w :: x :: ws => w ++ sep :: joinWith sep (x :: ws)

/-- The composite `re.sub(r'\s+', ' ', s).strip()` used throughout the source:
every maximal whitespace run becomes a single space and outer whitespace is
removed, i.e. the words joined by single spaces. -/
def collapseStrip (cs : List Char) : List Char := joinWith ' ' (wordsOf cs)

/-- Python `str.strip()` (ASCII whitespace). -/
def pyStrip (cs : List Char) : List Char :=
  ((cs.dropWhile isSpaceC).reverse.dropWhile isSpaceC).reverse

/-- Line-break characters of Python `str.splitlines`. -/
def isLineBreakC (c : Char) : Bool :=
  c == '\n' || c == '\r' || c == '\x0b' || c == '\x0c' ||
  c.toNat = 0x1c || c.toNat = 0x1d || c.toNat = 0x1e || c.toNat = 0x85 ||
  c.toNat = 0x2028 || c.toNat = 0x2029

/-- Split at line-break characters (each break is a separator; a `\r\n` pair
thus yields an extra empty segment, which the caller filters out together with
all other blank lines, so the observable line list agrees with Python's). -/
def splitLinesL : List Char → List (List Char)
  | [] => [[]]
  | c :: rest =>
    let r := splitLinesL rest
    if isLineBreakC c then [] :: r else (c :: r.headD []) :: r.tail

/-- Accent folding (`unicodedata.normalize('NFKD', s)` followed by dropping
combining marks), modelled as a direct table for the precomposed Latin letters;
identity elsewhere. -/
def accPairs : List (Char × Char) :=
  [('À','A'),('Á','A'),('Â','A'),('Ã','A'),('Ä','A'),('Å','A'),
   ('È','E'),('É','E'),('Ê','E'),('Ë','E'),
   ('Ì','I'),('Í','I'),('Î','I'),('Ï','I'),
   ('Ò','O'),('Ó','O'),('Ô','O'),('Õ','O'),('Ö','O'),
   ('Ù','U'),('Ú','U'),('Û','U'),('Ü','U'),
   ('Ç','C'),('Ñ','N'),('Ý','Y'),
   ('à','a'),('á','a'),('â','a'),('ã','a'),('ä','a'),('å','a'),
   ('è','e'),('é','e'),('ê','e'),('ë','e'),
   ('ì','i'),('í','i'),('î','i'),('ï','i'),
   ('ò','o'),('ó','o'),('ô','o'),('õ','o'),('ö','o'),
   ('ù','u'),('ú','u'),('û','u'),('ü','u'),
   ('ç','c'),('ñ','n'),('ý','y'),('ÿ','y')]

def accentFold (c : Char) : Char := ((accPairs.find? (fun p => p.1 == c)).map (·.2)).getD c

/-- The OCR correction table of `clean_ocr_text`, in the source's insertion
order (Python dicts iterate in insertion order). -/
def corrections : List (String × String) :=
  [("—", " "), ("–", " "), ("|", " "), ("\\", " "), ("/", " "), ("_", " "),
   ("º", " "), ("ª", " "), ("%", "A"), ("Ã", "A"), ("Ãº", "U"), ("Í", "I"),
   ("í", "i"), ("â", "a"), ("ó", "o"), ("�", " "), ("\n", " ")]

/-- Character class of `re.sub(r'[‘’“”´\[\]<>\"*#@~]', ' ', _)`. -/
def sub1Class : List Char :=
  ['‘','’','“','”','´','[',']','<','>','\"','*','#','@','~']

/-- Character class of `re.sub(r'[-=+~©®]', ' ', _)`. -/
def sub2Class : List Char := ['-','=','+','~','©','®']

/-- `clean_ocr_text` from `parser.py`: correction table, symbol removal,
non-word collapse, whitespace normalization, then accent stripping. -/
def clean_ocr_text (s : String) : String :=
  if s = "" then s
  else
    let cs := corrections.foldl (fun acc kv => replaceAllL kv.1.data kv.2.data acc) s.data
    let cs := cs.map (fun c => if sub1Class.contains c then ' ' else c)
    let cs := cs.map (fun c => if sub2Class.contains c then ' ' else c)
    let cs := cs.map (fun c => if !(isWordC c || isSpaceC c) then ' ' else c)
    let cs := collapseStrip cs
    let cs := cs.map accentFold
    String.mk cs

def sepTime1 (c : Char) : Bool := c == ':' || c == '|' || c == 'l' || c == 'I'

def sepColon (c : Char) : Bool := c == ':'

def COMMON_ROLES : List String :=
  ["PEDREIRO", "SERVENTE", "PINTOR", "ELETRICISTA", "ALMOXARIFE",
   "FERREIRO", "AUXILIAR", "ENCANADOR", "MARCENEIRO", "SERVICO"]

def COMMON_FIRST_NAMES : List String :=
  ["ADRIANO","ALDENIR","ANDRE","ANTONIO","ANTONIO","CAIO","RAFAEL","COSME","DAMIAO","EMERSON",
   "FLAVIO","FRANCISCO","JOAO","JOSE","JORGE","LEANDRO","MAICOM","MARCOS","MATHEUS",
   "MICHAEL","PAULO","RAILSON","RENATO","RICARDO","RONALDO","SEBASTIAO","TIAGO","WELLINGTON",
   "JEFERSON","JEFERSON","JOAQUIM","JONALDO","ISRAEL"]

def shortConnectives : List String := ["E", "DE", "DA", "DO", "DOS", "DAS", "O", "A"]

def absentWords : List String := ["F", "FALTA", "AUSENTE"]

/-- `strip_times_and_roles` from `parser.py`: remove time tokens (the colon
possibly OCR'd as `|`, `l` or `I`), then plain time tokens, then digit runs of
length at least 2, then role words, then short connective words, and collapse
whitespace. -/
def strip_times_and_roles (line : String) : String :=
  if line = "" then line
  else
    let cs := reSub (timeAt sepTime1) line.data
    let cs := reSub (timeAt sepColon) cs
    let cs := reSub numRunAt cs
    let cs := COMMON_ROLES.foldl (fun acc r => reSub (wordLitAt r.data) acc) cs
    let cs := reSub (altWordAt (shortConnectives.map (fun w => w.data))) cs
    String.mk (collapseStrip cs)

/-- Python `str.title` for the letters-and-separators strings this pipeline
produces: a letter is uppercased when the previous character is not a letter,
lowercased otherwise. -/
def pyTitleAux : Bool → List Char → List Char
  | _, [] => []
  | prevAlpha, c :: rest =>
    (if isLetterC c then (if prevAlpha then toLowerC c else toUpperC c) else c) ::
      pyTitleAux (isLetterC c) rest

def pyTitleL (cs : List Char) : List Char := pyTitleAux false cs

/-- The inner loop of `split_joined_name`: the first dictionary name that is a
prefix of `csUp`. -/
def findFn2 : List String → List Char → Option (List Char)
  | [], _ => none
  | fn :: rest, csUp =>
    if fn.data.isPrefixOf csUp then some fn.data else findFn2 rest csUp

/-- The outer loop of `split_joined_name`: for each known first name that
prefixes `up`, try a second dictionary name at the start of the remainder,
else accept a remainder of plausible length (3 to 12); on failure continue
with the next first name. -/
def tryFns : List String → List Char → Option (List Char)
  | [], _ => none
  | fn :: more, up =>
    if fn.data.isPrefixOf up then
      let rest := up.drop fn.data.length
      match findFn2 COMMON_FIRST_NAMES rest with
      | some fn2 => some (pyTitleL (fn.data ++ ' ' :: fn2))
      | none =>
        if 3 ≤ rest.length && rest.length ≤ 12 then some (pyTitleL (fn.data ++ ' ' :: rest))
        else tryFns more up
    else tryFns more up

/-- `split_joined_name` from `parser.py`.  A span that already has two or more
whitespace-separated tokens is returned unchanged; otherwise the uppercased
span is split via the first-name dictionary, with the generic fallback
`re.match(r'([A-Z]{3,})([A-Z]{3,})', up)` — whose backtracking yields the
groups (run minus last three letters, last three letters) of the leading
uppercase run when that run has length at least 6 — and finally `name.title()`. -/
def split_joined_name (name : String) : String :=
  if name = "" then name
  else if name.data.contains ' ' && 2 ≤ (wordsOf name.data).length then name
  else
    let up := name.data.map toUpperC
    match tryFns COMMON_FIRST_NAMES up with
    | some r => String.mk r
    | none =>
      let run := up.takeWhile isUpperC
      if 6 ≤ run.length then
        String.mk (pyTitleL (run.take (run.length - 3) ++ ' ' :: run.drop (run.length - 3)))
      else String.mk (pyTitleL name.data)

/-- `correct_name` from `parser.py`: clean, strip fields, keep only ASCII
letters and whitespace, collapse, split glued names, keep at most 4 tokens and
title-case each. -/
def correct_name (raw : String) : String :=
  if raw = "" then "Unknown"
  else
    let s1 := clean_ocr_text raw
    let s2 := strip_times_and_roles s1
    let s3 := s2.data.map (fun c => if isLetterC c || isSpaceC c then c else ' ')
    let s4 := String.mk (collapseStrip s3)
    if s4 = "" then "Unknown"
    else
      let s5 := split_joined_name s4
      String.mk (joinWith ' ' (((wordsOf s5.data).take 4).map pyTitleL))

/-- `rapidfuzz.process.extractOne`: the best-scoring roster candidate, first
occurrence winning ties; `none` on an empty roster.  The weighted-ratio scorer
itself lives in the external `rapidfuzz` library and is a parameter. -/
def extractOne (scorer : String → String → Nat) (name : String) (roster : List String) :
    Option (String × Nat) :=
  match roster with
  | [] => none
  | c :: rest =>
    some (rest.foldl
      (fun best cand => if scorer name cand > best.2 then (cand, scorer name cand) else best)
      (c, scorer name c))

/-- `match_to_roster` from `matcher.py`.  `hasRapidfuzz` models the module's
`HAS_RAPIDFUZZ` flag (the fuzzy matcher is an optional dependency); the
function is total, so "never raises" holds by construction. -/
def match_to_roster (scorer : String → String → Nat) (hasRapidfuzz : Bool) (name : String)
    (roster : List String) (threshold : Nat) : Option String × Option Nat :=
  if name = "" ∨ roster = [] then (none, none)
  else if hasRapidfuzz = false then (none, none)
  else
    match extractOne scorer name roster with
    | none => (none, none)
    | some (cand, score) =>
      if score ≥ threshold then (some cand, some score) else (none, some score)

/-- Per-line record of `parse_attendance_data` (the dict appended to
`details`). -/
structure AttendanceRecord where
  original_line : String
  cleaned_name : String
  corrected_name : String
  canonical_name : Option String
  match_score : Option Nat
  status : String
  has_time : Bool
  has_absent_mark : Bool
deriving DecidableEq, Repr, Inhabited

/-- The dictionary keys of the record built by `parse_attendance_data`, in
source order. -/
def attendanceRecordFields : List String :=
  ["original_line", "cleaned_name", "corrected_name", "canonical_name",
   "match_score", "status", "has_time", "has_absent_mark"]

/-- Result of `parse_attendance_data`. -/
structure SheetResult where
  present : Nat
  absent : Nat
  total_lines : Nat
  details : List AttendanceRecord
deriving DecidableEq, Repr, Inhabited

/-- `time_re.search` of `parse_attendance_data`:
`\b(?:[01]?\d|2[0-3]):[0-5]\d\b`. -/
def timeTokenIn (s : String) : Bool := reSearch (timeAt sepColon) s.data

/-- `absent_tokens.search` of `parse_attendance_data`:
`\b(F|FALTA|AUSENTE)\b` with `IGNORECASE`. -/
def absentTokenIn (s : String) : Bool :=
  reSearch (altWordAt (absentWords.map (fun w => w.data))) s.data

/-- The per-line body of `parse_attendance_data`'s loop.  `roster`, `scorer`
and `hasRF` model the module-level `ROSTER` and the optional fuzzy matcher. -/
def processLine (roster : List String) (scorer : String → String → Nat) (hasRF : Bool)
    (ln : String) : AttendanceRecord :=
  let has_time := timeTokenIn ln
  let has_absent := absentTokenIn ln
  let cleaned := clean_ocr_text ln
  let cleaned_no_meta := strip_times_and_roles cleaned
  let corrected := correct_name cleaned_no_meta
  let ms := if roster = [] then ((none : Option String), (none : Option Nat))
    else match_to_roster scorer hasRF corrected roster 85
  { original_line := ln
    cleaned_name := cleaned_no_meta
    corrected_name := corrected
    canonical_name := ms.1
    match_score := ms.2
    status := if has_time then "present" else if has_absent then "absent" else "unknown"
    has_time := has_time
    has_absent_mark := has_absent }

/-- The accumulation loop of `parse_attendance_data`: counters are incremented
in the same branches that choose the status, and the record is appended. -/
def parseFold (roster : List String) (scorer : String → String → Nat) (hasRF : Bool) :
    List String → Nat × Nat × List AttendanceRecord → Nat × Nat × List AttendanceRecord
  | [], st => st
  | ln :: rest, st =>
    let r := processLine roster scorer hasRF ln
    parseFold roster scorer hasRF rest
      (if r.has_time then st.1 + 1 else st.1,
       if r.has_time then st.2.1 else if r.has_absent_mark then st.2.1 + 1 else st.2.1,
       st.2.2 ++ [r])

/-- The non-blank stripped lines of the input
(`[ln.strip() for ln in text.splitlines() if ln.strip()]`). -/
def nonBlankLines (text : String) : List String :=
  ((splitLinesL text.data).map (fun cs => String.mk (pyStrip cs))).filter (fun s => s ≠ "")

/-- The lines actually processed: `lines[2:-1]` when more than 4 lines
(header/footer skipping), else all lines. -/
def iterLines (text : String) : List String :=
  let lines := nonBlankLines text
  if 4 < lines.length then (lines.drop 2).dropLast else lines

/-- `parse_attendance_data` from `parser.py`. -/
def parse_attendance_data (roster : List String) (scorer : String → String → Nat)
    (hasRF : Bool) (text : String) : SheetResult :=
  if text = "" then { present := 0, absent := 0, total_lines := 0, details := [] }
  else
    let st := parseFold roster scorer hasRF (iterLines text) (0, 0, [])
    { present := st.1
      absent := st.2.1
      total_lines := (nonBlankLines text).length
      details := st.2.2 }

/-! ### Helper lemmas about the parsing loop -/

def countUnknownB (ds : List AttendanceRecord) : Nat :=
  (ds.filter (fun r => r.status == "unknown")).length

theorem processLine_original_line (ro : List String) (sc : String → String → Nat) (h : Bool)
    (ln : String) : (processLine ro sc h ln).original_line = ln := rfl

theorem processLine_has_time (ro : List String) (sc : String → String → Nat) (h : Bool)
    (ln : String) : (processLine ro sc h ln).has_time = timeTokenIn ln := rfl

theorem processLine_has_absent (ro : List String) (sc : String → String → Nat) (h : Bool)
    (ln : String) : (processLine ro sc h ln).has_absent_mark = absentTokenIn ln := rfl

theorem processLine_corrected (ro : List String) (sc : String → String → Nat) (h : Bool)
    (ln : String) :
    (processLine ro sc h ln).corrected_name =
      correct_name (strip_times_and_roles (clean_ocr_text ln)) := rfl

theorem processLine_status (ro : List String) (sc : String → String → Nat) (h : Bool)
    (ln : String) :
    (processLine ro sc h ln).status =
      if (processLine ro sc h ln).has_time then "present"
      else if (processLine ro sc h ln).has_absent_mark then "absent" else "unknown" := rfl

theorem parseFold_details (ro : List String) (sc : String → String → Nat) (h : Bool) :
    ∀ (lns : List String) (p a : Nat) (ds : List AttendanceRecord),
      (parseFold ro sc h lns (p, a, ds)).2.2 = ds ++ lns.map (processLine ro sc h) := by
  intro lns
  induction lns with
  | nil => intro p a ds; simp [parseFold]
  | cons ln rest ih =>
    intro p a ds
    simp only [parseFold, List.map_cons]
    rw [ih]
    simp

theorem countUnknownB_append (ds : List AttendanceRecord) (r : AttendanceRecord) :
    countUnknownB (ds ++ [r]) =
      countUnknownB ds + (if r.status == "unknown" then 1 else 0) := by
  simp only [countUnknownB, List.filter_append, List.length_append]
  cases hr : (r.status == "unknown") <;> simp [List.filter, hr]

theorem parseFold_inv (ro : List String) (sc : String → String → Nat) (h : Bool) :
    ∀ (lns : List String) (p a : Nat) (ds : List AttendanceRecord),
      (parseFold ro sc h lns (p, a, ds)).1 + (parseFold ro sc h lns (p, a, ds)).2.1 +
          countUnknownB (parseFold ro sc h lns (p, a, ds)).2.2 =
        p + a + countUnknownB ds + lns.length ∧
      (parseFold ro sc h lns (p, a, ds)).2.2.length = ds.length + lns.length := by
  intro lns
  induction lns with
  | nil => intro p a ds; simp [parseFold]
  | cons ln rest ih =>
    intro p a ds
    simp only [parseFold]
    have hs := processLine_status ro sc h ln
    set r := processLine ro sc h ln with hr
    obtain ⟨ih1, ih2⟩ := ih (if r.has_time then p + 1 else p)
      (if r.has_time then a else if r.has_absent_mark then a + 1 else a) (ds ++ [r])
    refine ⟨?_, ?_⟩
    · rw [ih1, countUnknownB_append]
      cases hht : r.has_time with
      | true => rw [hs, hht] at *; simp; omega
      | false =>
        cases hha : r.has_absent_mark with
        | true => rw [hs, hht, hha] at *; simp; omega
        | false => rw [hs, hht, hha] at *; simp; omega
    · rw [ih2]; simp; omega

theorem iterLines_length_le (text : String) :
    (iterLines text).length ≤ (nonBlankLines text).length := by
  show (if 4 < (nonBlankLines text).length then ((nonBlankLines text).drop 2).dropLast
      else nonBlankLines text).length ≤ (nonBlankLines text).length
  split
  · simp only [List.length_dropLast, List.length_drop]; omega
  · exact le_refl _

theorem parse_eq (roster : List String) (scorer : String → String → Nat) (hasRF : Bool)
    (text : String) (h : text ≠ "") :
    parse_attendance_data roster scorer hasRF text =
      { present := (parseFold roster scorer hasRF (iterLines text) (0, 0, [])).1
        absent := (parseFold roster scorer hasRF (iterLines text) (0, 0, [])).2.1
        total_lines := (nonBlankLines text).length
        details := (parseFold roster scorer hasRF (iterLines text) (0, 0, [])).2.2 } := by
  unfold parse_attendance_data
  rw [if_neg h]

/-! ### Claims about the orchestrator -/

/-- C1: for every input text, the `SheetResult` returned by
`parse_attendance_data` satisfies `present + absent + #unknown-records =
#records` and `#records ≤ total_lines`.  (The counters are naturals, hence
non-negative by construction, matching the sign part of the claim.) -/
theorem C1_sheet_invariants (roster : List String) (scorer : String → String → Nat)
    (hasRF : Bool) (text : String) :
    (parse_attendance_data roster scorer hasRF text).present +
        (parse_attendance_data roster scorer hasRF text).absent +
        ((parse_attendance_data roster scorer hasRF text).details.filter
          (fun r => r.status == "unknown")).length =
      (parse_attendance_data roster scorer hasRF text).details.length ∧
    (parse_attendance_data roster scorer hasRF text).details.length ≤
      (parse_attendance_data roster scorer hasRF text).total_lines := by
  by_cases h : text = ""
  · subst h
    exact ⟨rfl, le_refl 0⟩
  · rw [parse_eq roster scorer hasRF text h]
    obtain ⟨h1, h2⟩ := parseFold_inv roster scorer hasRF (iterLines text) 0 0 []
    unfold countUnknownB at h1
    constructor
    · simpa using h1.trans (by simpa using h2.symm)
    · simpa using h2.le.trans (by simpa using iterLines_length_le text)

/-- C2 counterexample: the single-token (hence fewer than 4 tokens) non-blank
line "FALTA" is not discarded: it produces a record and increments the
`absent` counter. -/
theorem C2_counterexample :
    (wordsOf ("FALTA").data).length = 1 ∧
    (parse_attendance_data [] (fun _ _ => 0) false "FALTA").details.length = 1 ∧
    (parse_attendance_data [] (fun _ _ => 0) false "FALTA").absent = 1 :=
  ⟨rfl, rfl, rfl⟩

/-- C2 amended: there is no token-count filter.  Every non-blank line that
survives the header/footer skipping produces exactly one record (and, per
`C2_counterexample`, can change the counters), regardless of how few
whitespace-separated tokens it has. -/
theorem C2_amended_one_record_per_line (roster : List String)
    (scorer : String → String → Nat) (hasRF : Bool) (text : String) :
    (parse_attendance_data roster scorer hasRF text).details.length =
      (iterLines text).length := by
  by_cases h : text = ""
  · subst h; rfl
  · rw [parse_eq roster scorer hasRF text h]
    show (parseFold roster scorer hasRF (iterLines text) (0, 0, [])).2.2.length = _
    rw [parseFold_details]
    simp

/-- C3 counterexample: the record built by `parse_attendance_data` has exactly
the eight dictionary keys of the source and none of them is a punch slot; on a
line carrying four time tokens the produced record stores no time value at all
(only the `has_time` diagnostic boolean). -/
theorem C3_counterexample :
    (attendanceRecordFields.all (fun f => !(("punch").data.isPrefixOf f.data))) = true ∧
    attendanceRecordFields.length = 8 ∧
    (parse_attendance_data [] (fun _ _ => 0) false
        "JOAO SILVA 08:00 12:00 13:00 17:00").details =
      [{ original_line := "JOAO SILVA 08:00 12:00 13:00 17:00"
         cleaned_name := "JOAO SILVA"
         corrected_name := "Joao Silva"
         canonical_name := none
         match_score := none
         status := "present"
         has_time := true
         has_absent_mark := false }] :=
  ⟨by decide, rfl, rfl⟩

/-- C3 amended: records expose no punch slots; the only time-related output on
a record is the diagnostic boolean `has_time`, which holds exactly when the
time-token pattern matches the record's original line. -/
theorem C3_amended_has_time_only (roster : List String) (scorer : String → String → Nat)
    (hasRF : Bool) (text : String) :
    ((parse_attendance_data roster scorer hasRF text).details.all
      (fun r => r.has_time == timeTokenIn r.original_line)) = true := by
  by_cases h : text = ""
  · subst h; rfl
  · rw [parse_eq roster scorer hasRF text h]
    show ((parseFold roster scorer hasRF (iterLines text) (0, 0, [])).2.2.all _) = true
    rw [parseFold_details]
    rw [List.all_eq_true]
    intro r hr
    simp only [List.nil_append] at hr
    obtain ⟨ln, _, rfl⟩ := List.mem_map.mp hr
    rw [processLine_has_time, processLine_original_line]
    exact beq_self_eq_true _

/-- C4 counterexample: on the exact scenario-B line the pipeline's corrected
name is "Aldenirluiz Gambiarra", not the "Aldenir Luiz" the claim asserts
(the status is indeed present). -/
theorem C4_counterexample :
    ((parse_attendance_data [] (fun _ _ => 0) false
        "ALDENIRLUIZ — — GAMBIARRA — [PEDREIRO | 635 1133 / 13:02/ 170").details.map
      (fun r => (r.corrected_name, r.status))) =
      [("Aldenirluiz Gambiarra", "present")] ∧
    ("Aldenirluiz Gambiarra" : String) ≠ "Aldenir Luiz" :=
  ⟨rfl, by decide⟩

/-- C4 amended: on the scenario-B line the role "PEDREIRO" is removed and the
status is present, but the corrected name is "Aldenirluiz Gambiarra": the
surviving noise token "GAMBIARRA" makes the stripped span two tokens, so
`split_joined_name` returns it unchanged and the glued "ALDENIRLUIZ" is never
split.  (On the bare glued token the dictionary split does produce
"Aldenir Luiz".) -/
theorem C4_amended_no_split :
    ((parse_attendance_data [] (fun _ _ => 0) false
        "ALDENIRLUIZ — — GAMBIARRA — [PEDREIRO | 635 1133 / 13:02/ 170").details.map
      (fun r => (r.cleaned_name, r.corrected_name, r.status))) =
      [("ALDENIRLUIZ GAMBIARRA", "Aldenirluiz Gambiarra", "present")] ∧
    correct_name "ALDENIRLUIZ" = "Aldenir Luiz" :=
  ⟨rfl, rfl⟩

/-- C5: a processed line on which both the time-token pattern and the
absence-word pattern match is classified present, never absent. -/
theorem C5_time_wins (roster : List String) (scorer : String → String → Nat) (hasRF : Bool)
    (text : String) (r : AttendanceRecord)
    (hr : r ∈ (parse_attendance_data roster scorer hasRF text).details)
    (ht : timeTokenIn r.original_line = true)
    (ha : absentTokenIn r.original_line = true) :
    r.status = "present" := by
  by_cases htext : text = ""
  · subst htext; simp [parse_attendance_data] at hr
  · rw [parse_eq roster scorer hasRF text htext] at hr
    have hr2 : r ∈ (parseFold roster scorer hasRF (iterLines text) (0, 0, [])).2.2 := hr
    rw [parseFold_details] at hr2
    clear hr
    rename' hr2 => hr
    simp only [List.nil_append] at hr
    obtain ⟨ln, _, rfl⟩ := List.mem_map.mp hr
    rw [processLine_original_line] at ht
    rw [processLine_status, processLine_has_time, ht]
    rfl

/-- C5 witness: the line "JOSE FALTA 11:30" carries both a time token and an
absence word and its record is classified present. -/
theorem C5_time_wins_witness :
    timeTokenIn "JOSE FALTA 11:30" = true ∧ absentTokenIn "JOSE FALTA 11:30" = true ∧
    (AttendanceRecord.mk "JOSE FALTA 11:30" "JOSE FALTA" "Jose Falta" none none
      "present" true true).status = "present" := by
  refine ⟨rfl, rfl, ?_⟩
  refine C5_time_wins [] (fun _ _ => 0) false "JOSE FALTA 11:30" _ ?_ rfl rfl
  show _ ∈ (parse_attendance_data [] (fun _ _ => 0) false "JOSE FALTA 11:30").details
  rw [show (parse_attendance_data [] (fun _ _ => 0) false "JOSE FALTA 11:30").details =
      [AttendanceRecord.mk "JOSE FALTA 11:30" "JOSE FALTA" "Jose Falta" none none
        "present" true true] from rfl]
  exact List.mem_singleton.mpr rfl

/-! ### Claims about the roster matcher -/

/-- C6: `match_to_roster` returns `(none, none)` whenever the roster is empty
or the name is empty; the embedded function is total, so no exception can
arise. -/
theorem C6_empty_gives_none (scorer : String → String → Nat) (hasRF : Bool) (name : String)
    (roster : List String) (threshold : Nat) (h : roster = [] ∨ name = "") :
    match_to_roster scorer hasRF name roster threshold = (none, none) := by
  unfold match_to_roster
  rw [if_pos h.symm]

/-- C6 witness: both degenerate cases at concrete inputs. -/
theorem C6_empty_gives_none_witness :
    match_to_roster (fun _ _ => 99) true "Anybody" [] 85 = (none, none) ∧
    match_to_roster (fun _ _ => 99) true "" ["Jose Silva"] 85 = (none, none) :=
  ⟨C6_empty_gives_none (fun _ _ => 99) true "Anybody" [] 85 (Or.inl rfl),
   C6_empty_gives_none (fun _ _ => 99) true "" ["Jose Silva"] 85 (Or.inr rfl)⟩

/-- C7: with the fuzzy matcher available, a non-empty name and a non-empty
roster, the best candidate is accepted as canonical exactly when its score
reaches the threshold (inclusive), and a below-threshold best score is still
reported with a `none` canonical name. -/
theorem C7_threshold_inclusive (scorer : String → String → Nat) (name : String)
    (roster : List String) (threshold : Nat) (cand : String) (score : Nat)
    (hbest : extractOne scorer name roster = some (cand, score)) (hname : name ≠ "") :
    match_to_roster scorer true name roster threshold =
      ((if threshold ≤ score then some cand else none), some score) := by
  have hros : roster ≠ [] := by
    intro h; subst h; simp [extractOne] at hbest
  unfold match_to_roster
  rw [if_neg (by simp [hname, hros]), if_neg (by simp), hbest]
  show (if score ≥ threshold then (some cand, some score) else (none, some score)) = _
  by_cases hth : threshold ≤ score
  · rw [if_pos (ge_iff_le.mpr hth), if_pos hth]
  · rw [if_neg (fun hgo => hth (ge_iff_le.mp hgo)), if_neg hth]

/-- C7 witness: a candidate whose score is exactly the threshold (85) is
accepted, exercising the inclusive boundary. -/
theorem C7_threshold_inclusive_witness :
    match_to_roster (fun _ _ => 85) true "Jo" ["Joao"] 85 = (some "Joao", some 85) := by
  have h := C7_threshold_inclusive (fun _ _ => 85) "Jo" ["Joao"] 85 "Joao" 85 rfl
    (by decide)
  simpa using h

/-! ### The normalizer on already-clean ASCII text -/

/-- A character of already-clean ASCII text: an ASCII letter or digit, or a
single space. -/
def cleanCharB (c : Char) : Bool := isAlnumC c || c == ' '

/-- Already-clean ASCII text: every character is an ASCII alphanumeric or a
space, and the whitespace is already collapsed and trimmed. -/
def isCleanAsciiB (s : String) : Bool :=
  s.data.all cleanCharB && (collapseStrip s.data == s.data)

theorem replAux_no_match (p0 : Char) (ps v : List Char) :
    ∀ (fuel : Nat) (cs : List Char), p0 ∉ cs → replAux (p0 :: ps) v fuel cs = cs := by
  intro fuel
  induction fuel with
  | zero => intro cs _; cases cs <;> rfl
  | succ n ih =>
    intro cs h
    cases cs with
    | nil => rfl
    | cons c rest =>
      have hne : (p0 == c) = false := by
        refine beq_eq_false_iff_ne.mpr ?_
        intro he; exact h (he ▸ List.mem_cons_self c rest)
      rw [replAux, if_neg (by simp [List.isPrefixOf, hne]),
        ih rest (fun hm => h (List.mem_cons_of_mem c hm))]

theorem foldl_replaceAll_id :
    ∀ (kvs : List (String × String)) (cs : List Char),
      (∀ kv ∈ kvs, ∃ p ps, kv.1.data = p :: ps ∧ p ∉ cs) →
      kvs.foldl (fun acc kv => replaceAllL kv.1.data kv.2.data acc) cs = cs := by
  intro kvs
  induction kvs with
  | nil => intro cs _; rfl
  | cons kv rest ih =>
    intro cs h
    obtain ⟨p, ps, hd, hnm⟩ := h kv (List.mem_cons_self _ _)
    have h1 : replaceAllL kv.1.data kv.2.data cs = cs := by
      rw [hd]
      unfold replaceAllL
      rw [if_neg (by simp)]
      exact replAux_no_match p ps kv.2.data cs.length cs hnm
    rw [List.foldl_cons, h1]
    exact ih cs (fun kv2 h2 => h kv2 (List.mem_cons_of_mem _ h2))

theorem map_id_of_mem {f : Char → Char} :
    ∀ (cs : List Char), (∀ c ∈ cs, f c = c) → cs.map f = cs := by
  intro cs
  induction cs with
  | nil => intro _; rfl
  | cons c rest ih =>
    intro h
    rw [List.map_cons, h c (List.mem_cons_self _ _),
      ih (fun d hd => h d (List.mem_cons_of_mem _ hd))]

theorem cleanChar_cases (c : Char) (h : cleanCharB c = true) :
    c ∈ lowersC ++ uppersC ++ digitsC ++ [' '] := by
  unfold cleanCharB isAlnumC isLetterC isUpperC isLowerC isDigitC at h
  simp only [Bool.or_eq_true, beq_iff_eq] at h
  simp only [List.mem_append, List.mem_singleton]
  rcases h with ((h | h) | h) | h
  · exact Or.inl (Or.inl (Or.inr (List.mem_of_elem_eq_true h)))
  · exact Or.inl (Or.inl (Or.inl (List.mem_of_elem_eq_true h)))
  · exact Or.inl (Or.inr (List.mem_of_elem_eq_true h))
  · exact Or.inr h

theorem cleanChar_table : (lowersC ++ uppersC ++ digitsC ++ [' ']).all
    (fun c => !sub1Class.contains c && !sub2Class.contains c &&
      (isWordC c || isSpaceC c) && (accentFold c == c)) = true := by decide

theorem cleanChar_props (c : Char) (h : cleanCharB c = true) :
    sub1Class.contains c = false ∧ sub2Class.contains c = false ∧
      (isWordC c || isSpaceC c) = true ∧ accentFold c = c := by
  have hx := List.all_eq_true.mp cleanChar_table c (cleanChar_cases c h)
  simp only [Bool.and_eq_true, Bool.not_eq_true', beq_iff_eq] at hx
  exact ⟨hx.1.1.1, hx.1.1.2, hx.1.2, hx.2⟩

theorem corrections_heads : corrections.all
    (fun kv => !kv.1.data.isEmpty && !cleanCharB (kv.1.data.headD ' ')) = true := by decide

theorem string_mk_data (s : String) : String.mk s.data = s := by
  cases s; rfl

/-- On already-clean ASCII text every stage of `clean_ocr_text` is the
identity. -/
theorem clean_ocr_text_fixed (s : String) (h : isCleanAsciiB s = true) :
    clean_ocr_text s = s := by
  have h' := h
  unfold isCleanAsciiB at h'
  rw [Bool.and_eq_true] at h'
  obtain ⟨hall, hcol⟩ := h'
  have hmem : ∀ c ∈ s.data, cleanCharB c = true := List.all_eq_true.mp hall
  by_cases hs : s = ""
  · subst hs; rfl
  · unfold clean_ocr_text
    rw [if_neg hs]
    show String.mk ((collapseStrip ((((corrections.foldl
        (fun acc kv => replaceAllL kv.1.data kv.2.data acc) s.data).map
          (fun c => if sub1Class.contains c then ' ' else c)).map
          (fun c => if sub2Class.contains c then ' ' else c)).map
          (fun c => if !(isWordC c || isSpaceC c) then ' ' else c))).map accentFold) = s
    have e1 : corrections.foldl (fun acc kv => replaceAllL kv.1.data kv.2.data acc) s.data
        = s.data := by
      refine foldl_replaceAll_id corrections s.data ?_
      intro kv hkv
      have hx := List.all_eq_true.mp corrections_heads kv hkv
      simp only [Bool.and_eq_true, Bool.not_eq_true'] at hx
      obtain ⟨hne, hhd⟩ := hx
      cases hd : kv.1.data with
      | nil => rw [hd] at hne; simp at hne
      | cons p ps =>
        refine ⟨p, ps, rfl, ?_⟩
        intro hmem2
        rw [hd] at hhd
        simp only [List.headD_cons] at hhd
        rw [hmem p hmem2] at hhd
        simp at hhd
    rw [e1]
    have e2 : s.data.map (fun c => if sub1Class.contains c then ' ' else c) = s.data := by
      refine map_id_of_mem s.data (fun c hc => ?_)
      rw [(cleanChar_props c (hmem c hc)).1]; rfl
    rw [e2]
    have e3 : s.data.map (fun c => if sub2Class.contains c then ' ' else c) = s.data := by
      refine map_id_of_mem s.data (fun c hc => ?_)
      rw [(cleanChar_props c (hmem c hc)).2.1]; rfl
    rw [e3]
    have e4 : s.data.map (fun c => if !(isWordC c || isSpaceC c) then ' ' else c) = s.data := by
      refine map_id_of_mem s.data (fun c hc => ?_)
      rw [(cleanChar_props c (hmem c hc)).2.2.1]; rfl
    rw [e4, eq_of_beq hcol]
    have e5 : s.data.map accentFold = s.data :=
      map_id_of_mem s.data (fun c hc => (cleanChar_props c (hmem c hc)).2.2.2)
    rw [e5]

/-- C9: the normalizer is idempotent on already-clean ASCII text. -/
theorem C9_normalizer_idempotent (s : String) (h : isCleanAsciiB s = true) :
    clean_ocr_text (clean_ocr_text s) = clean_ocr_text s := by
  rw [clean_ocr_text_fixed s h]
  exact clean_ocr_text_fixed s h

/-- C9 witness: idempotence at a concrete clean ASCII line. -/
theorem C9_normalizer_idempotent_witness :
    isCleanAsciiB "ADRIANO DANTAS 11 37" = true ∧
    clean_ocr_text (clean_ocr_text "ADRIANO DANTAS 11 37") =
      clean_ocr_text "ADRIANO DANTAS 11 37" :=
  ⟨by decide, C9_normalizer_idempotent "ADRIANO DANTAS 11 37" (by decide)⟩

/-! ### Character casing facts -/

theorem lowers_toUpper_table : lowersC.all
    (fun c => isUpperC (toUpperC c) && !isSpaceC (toUpperC c)) = true := by decide

theorem uppers_toLower_table : uppersC.all
    (fun c => isLowerC (toLowerC c) && !isSpaceC (toLowerC c)) = true := by decide

theorem letters_not_space_table :
    (lowersC ++ uppersC).all (fun c => !isSpaceC c) = true := by decide

theorem toUpperC_id (c : Char) (h : isLowerC c = false) : toUpperC c = c := by
  unfold toUpperC
  have hf : upPairs.find? (fun p => p.1 == c) = none := by
    rw [List.find?_eq_none]
    intro p hp hbeq
    have hc : c ∈ lowersC := by
      have : p.1 ∈ lowersC := List.mem_map_of_mem (·.1) hp
      rwa [eq_of_beq hbeq] at this
    rw [isLowerC, List.contains, List.elem_eq_true_of_mem hc] at h
    exact Bool.true_eq_false ▸ h
  rw [hf]
  rfl

theorem toLowerC_id (c : Char) (h : isUpperC c = false) : toLowerC c = c := by
  unfold toLowerC
  have hf : upPairs.find? (fun p => p.2 == c) = none := by
    rw [List.find?_eq_none]
    intro p hp hbeq
    have hc : c ∈ uppersC := by
      have : p.2 ∈ uppersC := List.mem_map_of_mem (·.2) hp
      rwa [eq_of_beq hbeq] at this
    rw [isUpperC, List.contains, List.elem_eq_true_of_mem hc] at h
    exact Bool.true_eq_false ▸ h
  rw [hf]
  rfl

theorem letters_not_space (c : Char) (h : isLetterC c = true) : isSpaceC c = false := by
  rw [isLetterC, Bool.or_eq_true] at h
  have hmem : c ∈ lowersC ++ uppersC := by
    rw [List.mem_append]
    rcases h with h | h
    · exact Or.inr (List.mem_of_elem_eq_true h)
    · exact Or.inl (List.mem_of_elem_eq_true h)
  have := List.all_eq_true.mp letters_not_space_table c hmem
  simpa using this

theorem toUpperC_upper (c : Char) (h : isLetterC c = true) : isUpperC (toUpperC c) = true := by
  cases hl : isLowerC c with
  | true =>
    have := List.all_eq_true.mp lowers_toUpper_table c (List.mem_of_elem_eq_true hl)
    exact (Bool.and_eq_true _ _ ▸ this).1
  | false =>
    rw [toUpperC_id c hl]
    rw [isLetterC, Bool.or_eq_true] at h
    rcases h with h | h
    · exact h
    · rw [h] at hl; exact absurd hl (by simp)

theorem toLowerC_lower (c : Char) (h : isLetterC c = true) : isLowerC (toLowerC c) = true := by
  cases hu : isUpperC c with
  | true =>
    have := List.all_eq_true.mp uppers_toLower_table c (List.mem_of_elem_eq_true hu)
    exact (Bool.and_eq_true _ _ ▸ this).1
  | false =>
    rw [toLowerC_id c hu]
    rw [isLetterC, Bool.or_eq_true] at h
    rcases h with h | h
    · rw [h] at hu; exact absurd hu (by simp)
    · exact h

theorem toUpperC_letter (c : Char) (h : isLetterC c = true) : isLetterC (toUpperC c) = true := by
  rw [isLetterC, toUpperC_upper c h]
  rfl

theorem toLowerC_letter (c : Char) (h : isLetterC c = true) : isLetterC (toLowerC c) = true := by
  rw [isLetterC, toLowerC_lower c h, Bool.or_true]

theorem toUpperC_space (c : Char) (h : c = ' ') : toUpperC c = ' ' := by
  subst h; decide

/-! ### Title-casing lemmas -/

/-- A titled token: non-empty, uppercase first letter, lowercase rest. -/
def okTok : List Char → Bool
  | [] => false
  | c :: rest => isUpperC c && rest.all isLowerC

theorem pyTitleAux_length (b : Bool) (cs : List Char) :
    (pyTitleAux b cs).length = cs.length := by
  induction cs generalizing b with
  | nil => rfl
  | cons c rest ih => simp [pyTitleAux, ih]

theorem pyTitleAux_letters (b : Bool) (cs : List Char)
    (h : ∀ c ∈ cs, isLetterC c = true) :
    ∀ c ∈ pyTitleAux b cs, isLetterC c = true := by
  induction cs generalizing b with
  | nil => intro c hc; simp [pyTitleAux] at hc
  | cons d rest ih =>
    intro c hc
    have hd := h d (List.mem_cons_self _ _)
    rw [pyTitleAux] at hc
    rcases List.mem_cons.mp hc with hc | hc
    · subst hc
      rw [hd]
      cases b with
      | true => simpa using toLowerC_letter d hd
      | false => simpa using toUpperC_letter d hd
    · exact ih (isLetterC d) (fun e he => h e (List.mem_cons_of_mem _ he)) c hc

theorem pyTitleAux_letter_space (b : Bool) (cs : List Char)
    (h : ∀ c ∈ cs, isLetterC c = true ∨ c = ' ') :
    ∀ c ∈ pyTitleAux b cs, isLetterC c = true ∨ c = ' ' := by
  induction cs generalizing b with
  | nil => intro c hc; simp [pyTitleAux] at hc
  | cons d rest ih =>
    intro c hc
    rw [pyTitleAux] at hc
    rcases List.mem_cons.mp hc with hc | hc
    · subst hc
      rcases h d (List.mem_cons_self _ _) with hd | hd
      · rw [hd]
        left
        cases b with
        | true => simpa using toLowerC_letter d hd
        | false => simpa using toUpperC_letter d hd
      · subst hd
        right
        have : isLetterC ' ' = false := by decide
        rw [this]
        simp
    · exact ih (isLetterC d) (fun e he => h e (List.mem_cons_of_mem _ he)) c hc

theorem pyTitleAux_ex_nonspace (cs : List Char) (b : Bool)
    (hg : ∀ c ∈ cs, isLetterC c = true ∨ c = ' ')
    (hex : ∃ c ∈ cs, isSpaceC c = false) :
    ∃ c ∈ pyTitleAux b cs, isSpaceC c = false := by
  induction cs generalizing b with
  | nil => simp at hex
  | cons d rest ih =>
    rcases hg d (List.mem_cons_self _ _) with hd | hd
    · refine ⟨(if isLetterC d then (if b then toLowerC d else toUpperC d) else d), ?_, ?_⟩
      · rw [pyTitleAux]; exact List.mem_cons_self _ _
      · rw [hd]
        cases b with
        | true => simpa using letters_not_space _ (toLowerC_letter d hd)
        | false => simpa using letters_not_space _ (toUpperC_letter d hd)
    · subst hd
      obtain ⟨c, hc, hcs⟩ := hex
      rcases List.mem_cons.mp hc with hc | hc
      · subst hc; exact absurd hcs (by decide)
      · obtain ⟨c2, hc2, hcs2⟩ := ih (isLetterC ' ')
          (fun e he => hg e (List.mem_cons_of_mem _ he)) ⟨c, hc, hcs⟩
        exact ⟨c2, by rw [pyTitleAux]; exact List.mem_cons_of_mem _ hc2, hcs2⟩

theorem pyTitleAux_true_lower (cs : List Char)
    (h : ∀ c ∈ cs, isLetterC c = true) :
    ∀ c ∈ pyTitleAux true cs, isLowerC c = true := by
  induction cs with
  | nil => intro c hc; simp [pyTitleAux] at hc
  | cons d rest ih =>
    intro c hc
    have hd := h d (List.mem_cons_self _ _)
    rw [pyTitleAux, hd] at hc
    rcases List.mem_cons.mp hc with hc | hc
    · subst hc; simpa using toLowerC_lower d hd
    · exact ih (fun e he => h e (List.mem_cons_of_mem _ he)) c hc

theorem pyTitleL_titled (w : List Char) (hne : w ≠ [])
    (h : ∀ c ∈ w, isLetterC c = true) : okTok (pyTitleL w) = true := by
  cases w with
  | nil => exact absurd rfl hne
  | cons c rest =>
    have hc := h c (List.mem_cons_self _ _)
    show okTok (pyTitleAux false (c :: rest)) = true
    rw [pyTitleAux, hc]
    simp only [if_false, Bool.false_eq_true]
    rw [okTok, Bool.and_eq_true]
    constructor
    · simpa using toUpperC_upper c hc
    · rw [List.all_eq_true]
      exact fun x hx => pyTitleAux_true_lower rest
        (fun e he => h e (List.mem_cons_of_mem _ he)) x hx

theorem pyTitleAux_nospace (b : Bool) (cs : List Char)
    (h : ∀ c ∈ cs, isSpaceC c = false) :
    ∀ c ∈ pyTitleAux b cs, isSpaceC c = false := by
  induction cs generalizing b with
  | nil => intro c hc; simp [pyTitleAux] at hc
  | cons d rest ih =>
    intro c hc
    rw [pyTitleAux] at hc
    rcases List.mem_cons.mp hc with hc | hc
    · subst hc
      cases hl : isLetterC d with
      | true =>
        cases b with
        | true => simpa using letters_not_space _ (toLowerC_letter d hl)
        | false => simpa using letters_not_space _ (toUpperC_letter d hl)
      | false =>
        simpa using h d (List.mem_cons_self _ _)
    · exact ih (isLetterC d) (fun e he => h e (List.mem_cons_of_mem _ he)) c hc

/-! ### Lemmas about whitespace splitting and joining -/

theorem splitSp_ne_nil (cs : List Char) : splitSp cs ≠ [] := by
  cases cs with
  | nil => simp [splitSp]
  | cons c rest =>
    rw [splitSp]
    split <;> simp

theorem splitSp_chars :
    ∀ (cs : List Char) (w : List Char), w ∈ splitSp cs →
      ∀ c ∈ w, c ∈ cs ∧ isSpaceC c = false := by
  intro cs
  induction cs with
  | nil =>
    intro w hw c hc
    simp [splitSp] at hw
    subst hw
    simp at hc
  | cons d rest ih =>
    intro w hw c hc
    rw [splitSp] at hw
    by_cases hd : isSpaceC d = true
    · rw [if_pos hd] at hw
      rcases List.mem_cons.mp hw with hw | hw
      · subst hw; simp at hc
      · obtain ⟨hm, hs⟩ := ih w hw c hc
        exact ⟨List.mem_cons_of_mem _ hm, hs⟩
    · rw [if_neg hd] at hw
      rcases List.mem_cons.mp hw with hw | hw
      · subst hw
        rcases List.mem_cons.mp hc with hc | hc
        · subst hc
          exact ⟨List.mem_cons_self _ _, Bool.not_eq_true _ ▸ hd⟩
        · cases hsp : splitSp rest with
          | nil => exact absurd hsp (splitSp_ne_nil rest)
          | cons w0 ws =>
            rw [hsp] at hc
            simp only [List.headD_cons] at hc
            obtain ⟨hm, hs⟩ := ih w0 (hsp ▸ List.mem_cons_self w0 ws) c hc
            exact ⟨List.mem_cons_of_mem _ hm, hs⟩
      · obtain ⟨hm, hs⟩ := ih w (List.mem_of_mem_tail hw) c hc
        exact ⟨List.mem_cons_of_mem _ hm, hs⟩

theorem wordsOf_mem_props (cs : List Char) (w : List Char) (hw : w ∈ wordsOf cs) :
    w ≠ [] ∧ ∀ c ∈ w, c ∈ cs ∧ isSpaceC c = false := by
  rw [wordsOf] at hw
  obtain ⟨hw1, hw2⟩ := List.mem_filter.mp hw
  refine ⟨?_, splitSp_chars cs w hw1⟩
  simpa using hw2

theorem wordsOf_cons_space (d : Char) (rest : List Char) (hd : isSpaceC d = true) :
    wordsOf (d :: rest) = wordsOf rest := by
  rw [wordsOf, wordsOf, splitSp, if_pos hd]
  rfl

theorem wordsOf_ne_nil (cs : List Char) (hex : ∃ c ∈ cs, isSpaceC c = false) :
    wordsOf cs ≠ [] := by
  induction cs with
  | nil => simp at hex
  | cons d rest ih =>
    by_cases hd : isSpaceC d = true
    · rw [wordsOf_cons_space d rest hd]
      obtain ⟨c, hc, hcs⟩ := hex
      rcases List.mem_cons.mp hc with hc | hc
      · subst hc; rw [hd] at hcs; exact absurd hcs (by simp)
      · exact ih ⟨c, hc, hcs⟩
    · rw [wordsOf, splitSp, if_neg hd]
      simp

theorem splitSp_word_space (w t : List Char) (hw : ∀ c ∈ w, isSpaceC c = false) :
    splitSp (w ++ ' ' :: t) = w :: splitSp t := by
  induction w with
  | nil =>
    have hsp : isSpaceC ' ' = true := by decide
    simp [splitSp, hsp]
  | cons c w2 ih =>
    have hc : isSpaceC c = false := hw c (List.mem_cons_self _ _)
    rw [List.cons_append, splitSp, ih (fun d hd => hw d (List.mem_cons_of_mem _ hd))]
    rw [if_neg (by rw [hc]; simp)]
    simp

theorem splitSp_word_nil (w : List Char) (hw : ∀ c ∈ w, isSpaceC c = false) :
    splitSp w = [w] := by
  induction w with
  | nil => rfl
  | cons c w2 ih =>
    have hc : isSpaceC c = false := hw c (List.mem_cons_self _ _)
    rw [splitSp, ih (fun d hd => hw d (List.mem_cons_of_mem _ hd))]
    rw [if_neg (by rw [hc]; simp)]
    simp

theorem wordsOf_joinWith (ws : List (List Char))
    (h : ∀ w ∈ ws, w ≠ [] ∧ ∀ c ∈ w, isSpaceC c = false) :
    wordsOf (joinWith ' ' ws) = ws := by
  induction ws with
  | nil => rfl
  | cons w ws2 ih =>
    obtain ⟨hne, hns⟩ := h w (List.mem_cons_self _ _)
    cases ws2 with
    | nil =>
      rw [joinWith, wordsOf, splitSp_word_nil w hns]
      simp [hne]
    | cons x ws3 =>
      rw [joinWith, wordsOf, splitSp_word_space w _ hns, List.filter_cons]
      rw [if_pos (by simpa using hne)]
      have := ih (fun w2 h2 => h w2 (List.mem_cons_of_mem _ h2))
      rw [wordsOf] at this
      rw [this]

theorem joinWith_chars (ws : List (List Char)) :
    ∀ c ∈ joinWith ' ' ws, c = ' ' ∨ ∃ w ∈ ws, c ∈ w := by
  induction ws with
  | nil => intro c hc; simp [joinWith] at hc
  | cons w ws2 ih =>
    intro c hc
    cases ws2 with
    | nil =>
      rw [joinWith] at hc
      exact Or.inr ⟨w, List.mem_cons_self _ _, hc⟩
    | cons x ws3 =>
      rw [joinWith] at hc
      rcases List.mem_append.mp hc with hc | hc
      · exact Or.inr ⟨w, List.mem_cons_self _ _, hc⟩
      · rcases List.mem_cons.mp hc with hc | hc
        · exact Or.inl hc
        · rcases ih c hc with hc2 | ⟨w2, hw2, hcw2⟩
          · exact Or.inl hc2
          · exact Or.inr ⟨w2, List.mem_cons_of_mem _ hw2, hcw2⟩

theorem joinWith_ne_nil (w : List Char) (ws : List (List Char)) (hne : w ≠ []) :
    joinWith ' ' (w :: ws) ≠ [] := by
  cases ws with
  | nil => rw [joinWith]; exact hne
  | cons x ws2 =>
    rw [joinWith]
    cases w with
    | nil => exact absurd rfl hne
    | cons c w2 => simp

theorem joinWith_head_mem (w : List Char) (ws : List (List Char)) (c : Char) (hc : c ∈ w) :
    c ∈ joinWith ' ' (w :: ws) := by
  cases ws with
  | nil => rw [joinWith]; exact hc
  | cons x ws2 => rw [joinWith]; exact List.mem_append_left _ hc

theorem collapseStrip_chars (cs : List Char) :
    ∀ c ∈ collapseStrip cs, c = ' ' ∨ (c ∈ cs ∧ isSpaceC c = false) := by
  intro c hc
  rcases joinWith_chars (wordsOf cs) c hc with h | ⟨w, hw, hcw⟩
  · exact Or.inl h
  · exact Or.inr ((wordsOf_mem_props cs w hw).2 c hcw)

theorem collapseStrip_ex_nonspace (cs : List Char) (h : collapseStrip cs ≠ []) :
    ∃ c ∈ collapseStrip cs, isSpaceC c = false := by
  unfold collapseStrip at *
  cases hw : wordsOf cs with
  | nil => rw [hw] at h; exact absurd rfl h
  | cons w ws =>
    obtain ⟨hne, hprops⟩ := wordsOf_mem_props cs w (hw ▸ List.mem_cons_self w ws)
    cases w with
    | nil => exact absurd rfl hne
    | cons c0 w2 =>
      refine ⟨c0, ?_, (hprops c0 (List.mem_cons_self _ _)).2⟩
      exact joinWith_head_mem _ _ _ (List.mem_cons_self _ _)

/-! ### Letters-and-spaces preservation through name splitting -/

theorem pyTitle_span_props (cs : List Char)
    (hg : ∀ c ∈ cs, isLetterC c = true ∨ c = ' ')
    (hex : ∃ c ∈ cs, isSpaceC c = false) :
    (∀ c ∈ pyTitleL cs, isLetterC c = true ∨ c = ' ') ∧
    (∃ c ∈ pyTitleL cs, isSpaceC c = false) :=
  ⟨pyTitleAux_letter_space false cs hg, pyTitleAux_ex_nonspace cs false hg hex⟩

theorem firstNames_table : COMMON_FIRST_NAMES.all
    (fun fn => !fn.data.isEmpty && fn.data.all isLetterC) = true := by decide

theorem firstNames_fact :
    ∀ fn ∈ COMMON_FIRST_NAMES, fn.data ≠ [] ∧ ∀ c ∈ fn.data, isLetterC c = true := by
  intro fn hfn
  have hx := List.all_eq_true.mp firstNames_table fn hfn
  simp only [Bool.and_eq_true, Bool.not_eq_true'] at hx
  obtain ⟨h1, h2⟩ := hx
  refine ⟨?_, List.all_eq_true.mp h2⟩
  intro h
  rw [h] at h1
  simp at h1

theorem findFn2_mem : ∀ (l : List String) (cs r : List Char),
    findFn2 l cs = some r → ∃ fn ∈ l, r = fn.data := by
  intro l
  induction l with
  | nil => intro cs r h; simp [findFn2] at h
  | cons fn more ih =>
    intro cs r h
    rw [findFn2] at h
    by_cases hp : fn.data.isPrefixOf cs = true
    · rw [if_pos hp] at h
      exact ⟨fn, List.mem_cons_self _ _, (Option.some.inj h).symm⟩
    · rw [if_neg hp] at h
      obtain ⟨g, hg, hr⟩ := ih cs r h
      exact ⟨g, List.mem_cons_of_mem _ hg, hr⟩

theorem word_space_span (w x : List Char)
    (hw : ∀ c ∈ w, isLetterC c = true)
    (hx : ∀ c ∈ x, isLetterC c = true ∨ c = ' ') :
    ∀ c ∈ w ++ ' ' :: x, isLetterC c = true ∨ c = ' ' := by
  intro c hc
  rcases List.mem_append.mp hc with hc | hc
  · exact Or.inl (hw c hc)
  · rcases List.mem_cons.mp hc with hc | hc
    · exact Or.inr hc
    · exact hx c hc

theorem word_space_ex (w x : List Char) (hne : w ≠ [])
    (hw : ∀ c ∈ w, isLetterC c = true) :
    ∃ c ∈ w ++ ' ' :: x, isSpaceC c = false := by
  cases w with
  | nil => exact absurd rfl hne
  | cons p ps =>
    exact ⟨p, List.mem_append_left _ (List.mem_cons_self _ _),
      letters_not_space p (hw p (List.mem_cons_self _ _))⟩

theorem tryFns_good : ∀ (l : List String) (up r : List Char),
    tryFns l up = some r →
    (∀ fn ∈ l, fn.data ≠ [] ∧ ∀ c ∈ fn.data, isLetterC c = true) →
    (∀ c ∈ up, isLetterC c = true ∨ c = ' ') →
    (∀ c ∈ r, isLetterC c = true ∨ c = ' ') ∧ ∃ c ∈ r, isSpaceC c = false := by
  intro l
  induction l with
  | nil => intro up r htf _ _; simp [tryFns] at htf
  | cons fn more ih =>
    intro up r htf hl hup
    obtain ⟨hfn_ne, hfn_let⟩ := hl fn (List.mem_cons_self _ _)
    rw [tryFns] at htf
    by_cases hpre : fn.data.isPrefixOf up = true
    · rw [if_pos hpre] at htf
      cases hff : findFn2 COMMON_FIRST_NAMES (up.drop fn.data.length) with
      | some fn2 =>
        simp only [hff, Option.some.injEq] at htf
        obtain ⟨g, hgmem, hg2⟩ := findFn2_mem COMMON_FIRST_NAMES _ fn2 hff
        obtain ⟨hg_ne, hg_let⟩ := firstNames_fact g hgmem
        subst htf
        subst hg2
        exact pyTitle_span_props _
          (word_space_span _ _ hfn_let (fun c hc => Or.inl (hg_let c hc)))
          (word_space_ex _ _ hfn_ne hfn_let)
      | none =>
        simp only [hff] at htf
        split at htf
        · simp only [Option.some.injEq] at htf
          subst htf
          refine pyTitle_span_props _
            (word_space_span _ _ hfn_let ?_) (word_space_ex _ _ hfn_ne hfn_let)
          exact fun c hc => hup c (List.mem_of_mem_drop hc)
        · exact ih up r htf (fun g hg => hl g (List.mem_cons_of_mem _ hg)) hup
    · rw [if_neg hpre] at htf
      exact ih up r htf (fun g hg => hl g (List.mem_cons_of_mem _ hg)) hup

theorem split_joined_name_good (name : String)
    (hg : ∀ c ∈ name.data, isLetterC c = true ∨ c = ' ')
    (hex : ∃ c ∈ name.data, isSpaceC c = false) :
    (∀ c ∈ (split_joined_name name).data, isLetterC c = true ∨ c = ' ') ∧
    (∃ c ∈ (split_joined_name name).data, isSpaceC c = false) := by
  have hupg : ∀ c ∈ name.data.map toUpperC, isLetterC c = true ∨ c = ' ' := by
    intro c hc
    obtain ⟨a, ha, rfl⟩ := List.mem_map.mp hc
    rcases hg a ha with h | h
    · exact Or.inl (toUpperC_letter a h)
    · subst h; right; decide
  have hupex : ∃ c ∈ name.data.map toUpperC, isSpaceC c = false := by
    obtain ⟨c, hc, hcs⟩ := hex
    rcases hg c hc with h | h
    · exact ⟨toUpperC c, List.mem_map_of_mem _ hc,
        letters_not_space _ (toUpperC_letter c h)⟩
    · subst h; exact absurd hcs (by decide)
  by_cases h0 : name = ""
  · have heq : split_joined_name name = name := by
      unfold split_joined_name; rw [if_pos h0]
    rw [heq]; exact ⟨hg, hex⟩
  · by_cases h1 : (name.data.contains ' ' && decide (2 ≤ (wordsOf name.data).length)) = true
    · have heq : split_joined_name name = name := by
        unfold split_joined_name; rw [if_neg h0, if_pos h1]
      rw [heq]; exact ⟨hg, hex⟩
    · cases hff : tryFns COMMON_FIRST_NAMES (name.data.map toUpperC) with
      | some r =>
        have heq : split_joined_name name = String.mk r := by
          unfold split_joined_name
          rw [if_neg h0, if_neg h1]
          simp only [hff]
        rw [heq]
        exact tryFns_good COMMON_FIRST_NAMES _ r hff firstNames_fact hupg
      | none =>
        have hrun : ∀ c ∈ (name.data.map toUpperC).takeWhile isUpperC,
            isLetterC c = true := by
          intro c hc
          have := List.mem_takeWhile_imp hc
          rw [isLetterC, this]
          rfl
        by_cases hlen : 6 ≤ ((name.data.map toUpperC).takeWhile isUpperC).length
        · have heq : split_joined_name name = String.mk (pyTitleL
              (((name.data.map toUpperC).takeWhile isUpperC).take
                (((name.data.map toUpperC).takeWhile isUpperC).length - 3) ++ ' ' ::
               ((name.data.map toUpperC).takeWhile isUpperC).drop
                (((name.data.map toUpperC).takeWhile isUpperC).length - 3))) := by
            unfold split_joined_name
            rw [if_neg h0, if_neg h1]
            simp only [hff, if_pos hlen]
          rw [heq]
          refine pyTitle_span_props _ ?_ ?_
          · refine word_space_span _ _ ?_ ?_
            · exact fun c hc => hrun c (List.mem_of_mem_take hc)
            · exact fun c hc => Or.inl (hrun c (List.mem_of_mem_drop hc))
          · refine word_space_ex _ _ ?_ (fun c hc => hrun c (List.mem_of_mem_take hc))
            intro habs
            have hl3 : (((name.data.map toUpperC).takeWhile isUpperC).take
                (((name.data.map toUpperC).takeWhile isUpperC).length - 3)).length = 0 := by
              rw [habs]
              rfl
            rw [List.length_take] at hl3
            omega
        · have heq : split_joined_name name = String.mk (pyTitleL name.data) := by
            unfold split_joined_name
            rw [if_neg h0, if_neg h1]
            simp only [hff, if_neg hlen]
          rw [heq]
          exact pyTitle_span_props name.data hg hex

/-! ### Shape of correct_name output -/

theorem correct_name_eq (raw : String) (h : raw ≠ "") :
    correct_name raw =
      (if String.mk (collapseStrip ((strip_times_and_roles (clean_ocr_text raw)).data.map
            (fun c => if isLetterC c || isSpaceC c then c else ' '))) = "" then "Unknown"
       else String.mk (joinWith ' '
         (((wordsOf (split_joined_name (String.mk (collapseStrip
             ((strip_times_and_roles (clean_ocr_text raw)).data.map
              (fun c => if isLetterC c || isSpaceC c then c else ' '))))).data).take 4).map
           pyTitleL))) := by
  unfold correct_name
  rw [if_neg h]

theorem string_ne_empty_of_data (s : String) (h : s.data ≠ []) : s ≠ "" := by
  intro habs
  exact h (by rw [habs])

/-- Joint well-formedness of `correct_name` output: at most 4 tokens, every
token titled (uppercase head, lowercase rest), the string non-empty and made
only of ASCII letters and spaces. -/
theorem correct_name_props (raw : String) :
    ((wordsOf (correct_name raw).data).length ≤ 4 ∧
      (wordsOf (correct_name raw).data).all okTok = true) ∧
    (correct_name raw ≠ "" ∧ ∀ c ∈ (correct_name raw).data, isLetterC c = true ∨ c = ' ') := by
  by_cases h1 : raw = ""
  · subst h1
    have hu : correct_name "" = "Unknown" := rfl
    rw [hu]
    refine ⟨⟨?_, ?_⟩, ?_, ?_⟩ <;> decide
  · rw [correct_name_eq raw h1]
    set s3L := (strip_times_and_roles (clean_ocr_text raw)).data.map
      (fun c => if isLetterC c || isSpaceC c then c else ' ') with hs3L
    set s4 := String.mk (collapseStrip s3L) with hs4
    by_cases h4 : s4 = ""
    · rw [if_pos h4]
      refine ⟨⟨?_, ?_⟩, ?_, ?_⟩ <;> decide
    · rw [if_neg h4]
      have hs3 : ∀ c ∈ s3L, isLetterC c = true ∨ isSpaceC c = true := by
        intro c hc
        rw [hs3L] at hc
        obtain ⟨a, _, rfl⟩ := List.mem_map.mp hc
        by_cases hla : (isLetterC a || isSpaceC a) = true
        · rw [if_pos hla]
          rw [Bool.or_eq_true] at hla
          exact hla
        · rw [if_neg hla]
          right
          decide
      have hs4data : s4.data = collapseStrip s3L := by rw [hs4]
      have hs4g : ∀ c ∈ s4.data, isLetterC c = true ∨ c = ' ' := by
        intro c hc
        rw [hs4data] at hc
        rcases collapseStrip_chars s3L c hc with h | ⟨hmem, hns⟩
        · exact Or.inr h
        · rcases hs3 c hmem with h | h
          · exact Or.inl h
          · rw [h] at hns; exact absurd hns (by simp)
      have hcol_ne : collapseStrip s3L ≠ [] := by
        intro habs
        apply h4
        rw [hs4, habs]
      have hs4ex : ∃ c ∈ s4.data, isSpaceC c = false := by
        rw [hs4data]
        exact collapseStrip_ex_nonspace s3L hcol_ne
      obtain ⟨hs5g, hs5ex⟩ := split_joined_name_good s4 hs4g hs4ex
      set toks := wordsOf (split_joined_name s4).data with htoks
      have htok_props : ∀ w ∈ toks, w ≠ [] ∧ ∀ c ∈ w, isLetterC c = true ∧
          isSpaceC c = false := by
        intro w hw
        obtain ⟨hne, hch⟩ := wordsOf_mem_props _ w hw
        refine ⟨hne, fun c hc => ?_⟩
        obtain ⟨hmem, hns⟩ := hch c hc
        rcases hs5g c hmem with h | h
        · exact ⟨h, hns⟩
        · rw [h] at hns; exact absurd hns (by decide)
      have htoks_ne : toks ≠ [] := wordsOf_ne_nil _ hs5ex
      set ts2 := (toks.take 4).map pyTitleL with hts2
      have hts2_props : ∀ w2 ∈ ts2, w2 ≠ [] ∧ ∀ c ∈ w2, isSpaceC c = false := by
        intro w2 hw2
        rw [hts2] at hw2
        obtain ⟨w, hw, rfl⟩ := List.mem_map.mp hw2
        have hwi := htok_props w (List.mem_of_mem_take hw)
        constructor
        · intro habs
          have := pyTitleAux_length false w
          rw [show pyTitleL w = pyTitleAux false w from rfl] at habs
          rw [habs] at this
          cases w with
          | nil => exact hwi.1 rfl
          | cons c w3 => simp at this
        · exact pyTitleAux_nospace false w (fun c hc => (hwi.2 c hc).2)
      have hts2_ok : ∀ w2 ∈ ts2, okTok w2 = true := by
        intro w2 hw2
        rw [hts2] at hw2
        obtain ⟨w, hw, rfl⟩ := List.mem_map.mp hw2
        have hwi := htok_props w (List.mem_of_mem_take hw)
        exact pyTitleL_titled w hwi.1 (fun c hc => (hwi.2 c hc).1)
      have hts2_letters : ∀ w2 ∈ ts2, ∀ c ∈ w2, isLetterC c = true := by
        intro w2 hw2
        rw [hts2] at hw2
        obtain ⟨w, hw, rfl⟩ := List.mem_map.mp hw2
        have hwi := htok_props w (List.mem_of_mem_take hw)
        exact pyTitleAux_letters false w (fun c hc => (hwi.2 c hc).1)
      have hwords : wordsOf (String.mk (joinWith ' ' ts2)).data = ts2 :=
        wordsOf_joinWith ts2 hts2_props
      have hts2_ne : ts2 ≠ [] := by
        rw [hts2]
        cases htk : toks with
        | nil => exact absurd htk htoks_ne
        | cons t toks2 => simp
      refine ⟨⟨?_, ?_⟩, ?_, ?_⟩
      · rw [hwords, hts2]
        calc ((toks.take 4).map pyTitleL).length = (toks.take 4).length := by
              rw [List.length_map]
          _ ≤ 4 := by rw [List.length_take]; omega
      · rw [hwords]
        exact List.all_eq_true.mpr hts2_ok
      · refine string_ne_empty_of_data _ ?_
        show joinWith ' ' ts2 ≠ []
        cases hts : ts2 with
        | nil => exact absurd hts hts2_ne
        | cons w2 ws2 =>
          refine joinWith_ne_nil w2 ws2 ?_
          exact (hts2_props w2 (hts ▸ List.mem_cons_self w2 ws2)).1
      · intro c hc
        have hc2 : c ∈ joinWith ' ' ts2 := hc
        rcases joinWith_chars ts2 c hc2 with h | ⟨w2, hw2, hcw2⟩
        · exact Or.inr h
        · exact Or.inl (hts2_letters w2 hw2 c hcw2)

/-- C8: name reconstruction always yields at most 4 whitespace-separated
tokens, every token has an uppercase first letter and lowercase remaining
letters, and empty input yields the sentinel "Unknown". -/
theorem C8_corrected_name_tokens (raw : String) :
    (wordsOf (correct_name raw).data).length ≤ 4 ∧
    (wordsOf (correct_name raw).data).all okTok = true ∧
    correct_name "" = "Unknown" :=
  ⟨(correct_name_props raw).1.1, (correct_name_props raw).1.2, rfl⟩

/-- The name span that `correct_name` extracts from `raw` before splitting:
cleaning, field stripping, the `[^A-Za-z\s]` substitution and whitespace
collapsing.  This is the source's `s` at the `if not s: return 'Unknown'`
guard, so it is empty exactly when no name-bearing text survives stripping. -/
def nameSpanOf (raw : String) : String :=
  String.mk (collapseStrip ((strip_times_and_roles (clean_ocr_text raw)).data.map
    (fun c => if isLetterC c || isSpaceC c then c else ' ')))

theorem processLine_cleaned (ro : List String) (sc : String → String → Nat) (h : Bool)
    (ln : String) :
    (processLine ro sc h ln).cleaned_name = strip_times_and_roles (clean_ocr_text ln) := rfl

/-- When nothing name-bearing survives stripping (the surviving span is
empty), `correct_name` returns exactly the sentinel "Unknown". -/
theorem correct_name_unknown_of_empty_span (raw : String) (h : nameSpanOf raw = "") :
    correct_name raw = "Unknown" := by
  by_cases h1 : raw = ""
  · subst h1; rfl
  · rw [correct_name_eq raw h1]
    have h2 : String.mk (collapseStrip ((strip_times_and_roles (clean_ocr_text raw)).data.map
        (fun c => if isLetterC c || isSpaceC c then c else ' '))) = "" := h
    rw [if_pos h2]

/-- C10: the corrected_name of every produced record is a non-empty string of
ASCII letters and spaces only (no digits, punctuation or accents), and when
nothing name-like survives stripping (the surviving name span of the record's
cleaned, stripped line is empty) it is exactly the placeholder "Unknown". -/
theorem C10_corrected_name_wellformed (roster : List String)
    (scorer : String → String → Nat) (hasRF : Bool) (text : String) :
    ((parse_attendance_data roster scorer hasRF text).details.all
      (fun r => !(r.corrected_name == "") &&
        r.corrected_name.data.all (fun c => isLetterC c || c == ' ') &&
        (!(nameSpanOf r.cleaned_name == "") || (r.corrected_name == "Unknown")))) = true := by
  by_cases h : text = ""
  · subst h; rfl
  · rw [parse_eq roster scorer hasRF text h]
    show ((parseFold roster scorer hasRF (iterLines text) (0, 0, [])).2.2.all _) = true
    rw [parseFold_details]
    rw [List.all_eq_true]
    intro r hr
    simp only [List.nil_append] at hr
    obtain ⟨ln, _, rfl⟩ := List.mem_map.mp hr
    rw [processLine_corrected, processLine_cleaned]
    obtain ⟨_, hne, hch⟩ := correct_name_props (strip_times_and_roles (clean_ocr_text ln))
    simp only [Bool.and_eq_true]
    refine ⟨⟨?_, ?_⟩, ?_⟩
    · simpa using beq_eq_false_iff_ne.mpr hne
    · rw [List.all_eq_true]
      intro c hc
      rcases hch c hc with h2 | h2
      · rw [h2]; rfl
      · subst h2; rfl
    · by_cases hsp : nameSpanOf (strip_times_and_roles (clean_ocr_text ln)) = ""
      · have hu := correct_name_unknown_of_empty_span _ hsp
        rw [hu]
        simp
      · rw [Bool.or_eq_true]
        left
        simpa using beq_eq_false_iff_ne.mpr hsp
